import Mathlib

/-!
Verification of the box-scoring game from `asaphus_coding_challenge.cpp`.

The C++ program is embedded shallowly over `ℚ`:
* `double` values become rationals (every constant appearing in the program
  and its tests — 0.0, 0.1, 0.2, 0.3, the integer tokens, and the expected
  scores — is an exact rational, and all arithmetic the program performs on
  them is exact);
* `uint32_t` tokens become `ℕ`, cast to `ℚ` on absorption;
* the virtual `Box` hierarchy becomes a structure with a variant tag;
* mutation becomes explicit state passing.
-/

/-- The two `Box` subclasses of the program. -/
inductive BoxKind where
  | green
  | blue
deriving DecidableEq, Repr

/-- A `Box`: variant tag, current weight `weight_`, and the vector
`absorbed_weights_` (appended at the back, as `push_back` does). -/
structure Box where
  kind : BoxKind
  weight_ : ℚ
  absorbed_weights_ : List ℚ
deriving DecidableEq, Repr

/-- The factory `Box::makeGreenBox`: a fresh green box with the given initial weight. -/
def Box.makeGreenBox (initial_weight : ℚ) : Box :=
  ⟨BoxKind.green, initial_weight, []⟩

/-- The factory `Box::makeBlueBox`: a fresh blue box with the given initial weight. -/
def Box.makeBlueBox (initial_weight : ℚ) : Box :=
  ⟨BoxKind.blue, initial_weight, []⟩

/-- The method `GreenBox::calculateScore`: `0.0` on an empty history; the square of the
mean of the whole history while it has fewer than 3 entries; otherwise the
square of the mean of the three most recently absorbed weights (the C++ sums
`rbegin(), rbegin()+3`, i.e. the last three entries in reverse order). -/
def greenScore (hist : List ℚ) : ℚ :=
  if hist = [] then 0
  else if hist.length < 3 then (hist.sum / hist.length) ^ 2
  else ((hist.reverse.take 3).sum / 3) ^ 2

/-- The helper `BlueBox::cantorFunction`: `0.5 * (k1 + k2) * (k1 + k2 + 1) + k2`. -/
def cantorFunction (k1 k2 : ℚ) : ℚ :=
  (1 / 2) * (k1 + k2) * (k1 + k2 + 1) + k2

/-- The method `BlueBox::calculateScore`: `0.0` on an empty history, otherwise the
Cantor pairing of the smallest and largest absorbed weights
(`min_element` / `max_element` over the whole history). -/
def blueScore (hist : List ℚ) : ℚ :=
  match hist with
  | [] => 0
  | h :: t => cantorFunction (t.foldl min h) (t.foldl max h)

/-- Virtual dispatch of `calculateScore` over the two variants. -/
def Box.calculateScore (b : Box) : ℚ :=
  match b.kind with
  | BoxKind.green => greenScore b.absorbed_weights_
  | BoxKind.blue => blueScore b.absorbed_weights_

/-- The method `absorb` (identical in both subclasses): push the weight onto
`absorbed_weights_`, add it to `weight_`, return the new box together with
`calculateScore()` of the updated state. -/
def Box.absorb (b : Box) (weight : ℚ) : Box × ℚ :=
  let b := { b with
    absorbed_weights_ := b.absorbed_weights_ ++ [weight],
    weight_ := b.weight_ + weight }
  (b, b.calculateScore)

/-- A sequence of `absorb` calls, oldest token first. -/
def Box.absorbMany (b : Box) (ws : List ℚ) : Box :=
  ws.foldl (fun b w => (b.absorb w).1) b

/-- The scan of `std::min_element` with comparator `*a < *b`: `best` is the
smallest value seen so far, `bestIdx` its index, `i` the index of the next
element; the best is replaced only on strict decrease, so the first minimum
wins. -/
def minElemFrom (best : ℚ) (bestIdx i : ℕ) : List ℚ → ℕ
  | [] => bestIdx
  | x :: xs =>
    if x < best then minElemFrom x i (i + 1) xs
    else minElemFrom best bestIdx (i + 1) xs

/-- Index returned by `std::min_element` on a list of weights (0 for the
empty range, where the C++ iterator would be `end()`). -/
def minElementIdx : List ℚ → ℕ
  | [] => 0
  | x :: xs => minElemFrom x 0 1 xs

/-- A `Player`: just the cumulative score `score_`, starting at 0.0. -/
structure Player where
  score_ : ℚ
deriving DecidableEq, Repr

/-- The method `Player::takeTurn`: find the first box of smallest `weight_`, let it
absorb the input weight, and add the returned score to `score_`.  The
`[]` case is unreachable in the game (the collection always has 4 boxes). -/
def Player.takeTurn (p : Player) (input_weight : ℕ) (boxes : List Box) :
    Player × List Box :=
  let i := minElementIdx (boxes.map Box.weight_)
  match boxes[i]? with
  | none => (p, boxes)
  | some b =>
    let r := b.absorb (input_weight : ℚ)
    (⟨p.score_ + r.2⟩, boxes.set i r.1)

/-- The four boxes of a game session, in construction order:
Green(0.0), Green(0.1), Blue(0.2), Blue(0.3). -/
def initBoxes : List Box :=
  [Box.makeGreenBox 0, Box.makeGreenBox (1 / 10),
   Box.makeBlueBox (2 / 10), Box.makeBlueBox (3 / 10)]

/-- The loop of `play`: token counter `i`, player A takes the turn when
`i % 2 == 0`, player B otherwise. -/
def playAux : List ℕ → ℕ → Player → Player → List Box →
    Player × Player × List Box
  | [], _, pA, pB, boxes => (pA, pB, boxes)
  | w :: ws, i, pA, pB, boxes =>
    if i % 2 = 0 then
      let r := pA.takeTurn w boxes
      playAux ws (i + 1) r.1 pB r.2
    else
      let r := pB.takeTurn w boxes
      playAux ws (i + 1) pA r.1 r.2

/-- The entry point `play`: run the game on the input tokens and return the final pair
`(player_A.getScore(), player_B.getScore())`. -/
def play (input_weights : List ℕ) : ℚ × ℚ :=
  let r := playAux input_weights 0 ⟨0⟩ ⟨0⟩ initBoxes
  (r.1.score_, r.2.1.score_)

/-- The score produced by each successive turn, given the box state at the
start: every turn feeds one token to the first minimum-weight box, so the
per-turn scores do not depend on which player acts.  This is the
specification-side decomposition used to state the turn-alternation claim. -/
def turnScores : List ℕ → List Box → List ℚ
  | [], _ => []
  | w :: ws, boxes =>
    let r := (⟨0⟩ : Player).takeTurn w boxes
    r.1.score_ :: turnScores ws r.2

/-- The entries of a list at even positions (0-based). -/
def evenEntries : List ℚ → List ℚ
  | [] => []
  | [x] => [x]
  | x :: _ :: xs => x :: evenEntries xs

/-- The entries of a list at odd positions (0-based). -/
def oddEntries (l : List ℚ) : List ℚ :=
  evenEntries l.tail

/-! ## Basic lemmas about `absorb` -/

lemma absorb_fst_absorbed (b : Box) (w : ℚ) :
    (b.absorb w).1.absorbed_weights_ = b.absorbed_weights_ ++ [w] := rfl

lemma absorb_fst_weight (b : Box) (w : ℚ) :
    (b.absorb w).1.weight_ = b.weight_ + w := rfl

lemma absorb_fst_kind (b : Box) (w : ℚ) : (b.absorb w).1.kind = b.kind := rfl

lemma absorb_snd (b : Box) (w : ℚ) :
    (b.absorb w).2 = Box.calculateScore (b.absorb w).1 := rfl

/-! ## Green scoring -/

lemma greenScore_of_short (hist : List ℚ) (hne : hist ≠ [])
    (hlt : hist.length < 3) :
    greenScore hist = (hist.sum / hist.length) ^ 2 := by
  rw [greenScore, if_neg hne, if_pos hlt]

lemma greenScore_of_long (hist : List ℚ) (hne : hist ≠ [])
    (hge : ¬ hist.length < 3) :
    greenScore hist = ((hist.reverse.take 3).sum / 3) ^ 2 := by
  rw [greenScore, if_neg hne, if_neg hge]

/-- Claim C1: for a green box with a non-empty history, `calculateScore`
returns the square of the arithmetic mean of the last `min n 3` absorbed
weights (all of them when fewer than 3 have been absorbed), and the result
does not depend on any history entry older than the last three. -/
theorem green_calculateScore_spec :
    (∀ (w : ℚ) (hist : List ℚ), hist ≠ [] →
      Box.calculateScore ⟨BoxKind.green, w, hist⟩ =
        ((hist.drop (hist.length - min hist.length 3)).sum /
          (min hist.length 3 : ℕ)) ^ 2) ∧
    (∀ (w : ℚ) (pre₁ pre₂ suf : List ℚ), suf.length = 3 →
      Box.calculateScore ⟨BoxKind.green, w, pre₁ ++ suf⟩ =
        Box.calculateScore ⟨BoxKind.green, w, pre₂ ++ suf⟩) := by
  constructor
  · intro w hist hne
    show greenScore hist = _
    by_cases hlt : hist.length < 3
    · have hmin : min hist.length 3 = hist.length := Nat.min_eq_left (Nat.le_of_lt hlt)
      rw [greenScore_of_short hist hne hlt, hmin, Nat.sub_self, List.drop_zero]
    · have hmin : min hist.length 3 = 3 := Nat.min_eq_right (Nat.le_of_not_lt hlt)
      rw [greenScore_of_long hist hne hlt, hmin, List.take_reverse, List.sum_reverse]
      norm_num
  · intro w pre₁ pre₂ suf hsuf
    obtain ⟨a, b, c, rfl⟩ := List.length_eq_three.mp hsuf
    show greenScore _ = greenScore _
    have h1 : pre₁ ++ [a, b, c] ≠ [] := by simp
    have h2 : pre₂ ++ [a, b, c] ≠ [] := by simp
    have h3 : ¬ (pre₁ ++ [a, b, c]).length < 3 := by simp
    have h4 : ¬ (pre₂ ++ [a, b, c]).length < 3 := by simp
    rw [greenScore_of_long _ h1 h3, greenScore_of_long _ h2 h4,
      List.reverse_append, List.reverse_append]
    simp [List.take_succ_cons]

/-- Witness for C1 at concrete inputs. -/
theorem green_calculateScore_spec_witness :
    (Box.calculateScore ⟨BoxKind.green, 0, [1, 2, 3, 4]⟩ =
      ((([1, 2, 3, 4] : List ℚ).drop
          (([1, 2, 3, 4] : List ℚ).length - min ([1, 2, 3, 4] : List ℚ).length 3)).sum /
        (min ([1, 2, 3, 4] : List ℚ).length 3 : ℕ)) ^ 2) ∧
    (Box.calculateScore ⟨BoxKind.green, 0, [5] ++ [2, 3, 4]⟩ =
      Box.calculateScore ⟨BoxKind.green, 0, [6] ++ [2, 3, 4]⟩) :=
  ⟨green_calculateScore_spec.1 0 [1, 2, 3, 4] (by decide),
   green_calculateScore_spec.2 0 [5] [6] [2, 3, 4] (by decide)⟩

/-! ## Folded minimum and maximum -/

lemma foldl_min_mem (t : List ℚ) : ∀ h : ℚ, t.foldl min h ∈ h :: t := by
  induction t with
  | nil => intro h; simp
  | cons y ys ih =>
    intro h
    simp only [List.foldl_cons]
    rcases List.mem_cons.mp (ih (min h y)) with hm | hm
    · rw [hm]
      rcases min_choice h y with he | he <;> rw [he] <;> simp
    · simp [hm]

lemma foldl_min_le (t : List ℚ) : ∀ h x : ℚ, x ∈ h :: t → t.foldl min h ≤ x := by
  induction t with
  | nil =>
    intro h x hx
    rw [List.mem_singleton] at hx
    subst hx
    exact le_refl _
  | cons y ys ih =>
    intro h x hx
    simp only [List.foldl_cons]
    rcases List.mem_cons.mp hx with rfl | hx2
    · exact le_trans (ih _ _ (List.mem_cons_self _ _)) (min_le_left _ _)
    · rcases List.mem_cons.mp hx2 with rfl | hx3
      · exact le_trans (ih _ _ (List.mem_cons_self _ _)) (min_le_right _ _)
      · exact ih _ x (List.mem_cons_of_mem _ hx3)

lemma foldl_max_mem (t : List ℚ) : ∀ h : ℚ, t.foldl max h ∈ h :: t := by
  induction t with
  | nil => intro h; simp
  | cons y ys ih =>
    intro h
    simp only [List.foldl_cons]
    rcases List.mem_cons.mp (ih (max h y)) with hm | hm
    · rw [hm]
      rcases max_choice h y with he | he <;> rw [he] <;> simp
    · simp [hm]

lemma foldl_le_max (t : List ℚ) : ∀ h x : ℚ, x ∈ h :: t → x ≤ t.foldl max h := by
  induction t with
  | nil =>
    intro h x hx
    rw [List.mem_singleton] at hx
    subst hx
    exact le_refl _
  | cons y ys ih =>
    intro h x hx
    simp only [List.foldl_cons]
    rcases List.mem_cons.mp hx with rfl | hx2
    · exact le_trans (le_max_left _ _) (ih _ _ (List.mem_cons_self _ _))
    · rcases List.mem_cons.mp hx2 with rfl | hx3
      · exact le_trans (le_max_right _ _) (ih _ _ (List.mem_cons_self _ _))
      · exact ih _ x (List.mem_cons_of_mem _ hx3)

/-- Claim C2: for a blue box with a non-empty history, `calculateScore`
returns the Cantor pairing `0.5*(a+b)*(a+b+1)+b` of the minimum `a` and the
maximum `b` of the whole history (characterised order-independently by the
bounds `a` and `b` satisfy), and `pairing(0, 1) = 2`. -/
theorem blue_calculateScore_spec :
    (∀ (w : ℚ) (hist : List ℚ) (a b : ℚ), a ∈ hist → b ∈ hist →
      (∀ x ∈ hist, a ≤ x) → (∀ x ∈ hist, x ≤ b) →
      Box.calculateScore ⟨BoxKind.blue, w, hist⟩ =
        (1 / 2) * (a + b) * (a + b + 1) + b) ∧
    cantorFunction 0 1 = 2 := by
  constructor
  · intro w hist a b ha hb hmin hmax
    cases hist with
    | nil => exact absurd ha (List.not_mem_nil a)
    | cons h t =>
      show blueScore (h :: t) = _
      have h1 : t.foldl min h = a :=
        le_antisymm (foldl_min_le t h a ha) (hmin _ (foldl_min_mem t h))
      have h2 : t.foldl max h = b :=
        le_antisymm (hmax _ (foldl_max_mem t h)) (foldl_le_max t h b hb)
      show cantorFunction (t.foldl min h) (t.foldl max h) = _
      rw [h1, h2, cantorFunction]
  · rw [cantorFunction]; norm_num

/-- Witness for C2 at a concrete input. -/
theorem blue_calculateScore_spec_witness :
    Box.calculateScore ⟨BoxKind.blue, 0, [7, 1, 23]⟩ =
      (1 / 2) * (1 + 23) * (1 + 23 + 1) + 23 ∧ cantorFunction 0 1 = 2 :=
  ⟨blue_calculateScore_spec.1 0 [7, 1, 23] 1 23 (by decide) (by decide)
      (by decide) (by decide),
   blue_calculateScore_spec.2⟩

/-! ## The `std::min_element` scan -/

lemma mem_of_some_getElem {α : Type*} {l : List α} {k : ℕ} {y : α}
    (h : l[k]? = some y) : y ∈ l := by
  obtain ⟨hlt, rfl⟩ := List.getElem?_eq_some.mp h
  exact List.getElem_mem hlt

/-- Full characterisation of the scan: either the initial best survives and
is a lower bound of the list, or the result points `j` positions into the
list, at the first strict minimum. -/
lemma minElemFrom_spec (l : List ℚ) : ∀ (best : ℚ) (bestIdx i : ℕ),
    (minElemFrom best bestIdx i l = bestIdx ∧ ∀ x ∈ l, best ≤ x) ∨
    (∃ j v, l[j]? = some v ∧ minElemFrom best bestIdx i l = i + j ∧ v < best ∧
      (∀ (k : ℕ) (x : ℚ), l[k]? = some x → v ≤ x) ∧
      (∀ (k : ℕ) (x : ℚ), k < j → l[k]? = some x → v < x)) := by
  induction l with
  | nil =>
    intro best bestIdx i
    left
    exact ⟨rfl, by simp⟩
  | cons x xs ih =>
    intro best bestIdx i
    by_cases hx : x < best
    · right
      simp only [minElemFrom, if_pos hx]
      rcases ih x i (i + 1) with ⟨heq, hle⟩ | ⟨j, v, hj, heq, hlt, hall, hfirst⟩
      · refine ⟨0, x, List.getElem?_cons_zero, by rw [heq, Nat.add_zero], hx, ?_, ?_⟩
        · intro k y hk
          cases k with
          | zero =>
            simp only [List.getElem?_cons_zero, Option.some.injEq] at hk
            subst hk
            exact le_refl _
          | succ k =>
            rw [List.getElem?_cons_succ] at hk
            exact hle y (mem_of_some_getElem hk)
        · intro k y hklt hk
          exact absurd hklt (Nat.not_lt_zero k)
      · refine ⟨j + 1, v, ?_, ?_, lt_trans hlt hx, ?_, ?_⟩
        · rw [List.getElem?_cons_succ]
          exact hj
        · rw [heq]
          omega
        · intro k y hk
          cases k with
          | zero =>
            simp only [List.getElem?_cons_zero, Option.some.injEq] at hk
            subst hk
            exact le_of_lt hlt
          | succ k =>
            rw [List.getElem?_cons_succ] at hk
            exact hall k y hk
        · intro k y hklt hk
          cases k with
          | zero =>
            simp only [List.getElem?_cons_zero, Option.some.injEq] at hk
            subst hk
            exact hlt
          | succ k =>
            rw [List.getElem?_cons_succ] at hk
            exact hfirst k y (by omega) hk
    · have hbest : best ≤ x := le_of_not_lt hx
      simp only [minElemFrom, if_neg hx]
      rcases ih best bestIdx (i + 1) with ⟨heq, hle⟩ | ⟨j, v, hj, heq, hlt, hall, hfirst⟩
      · left
        refine ⟨heq, ?_⟩
        intro y hy
        rcases List.mem_cons.mp hy with rfl | hy2
        · exact hbest
        · exact hle y hy2
      · right
        refine ⟨j + 1, v, ?_, ?_, hlt, ?_, ?_⟩
        · rw [List.getElem?_cons_succ]
          exact hj
        · rw [heq]
          omega
        · intro k y hk
          cases k with
          | zero =>
            simp only [List.getElem?_cons_zero, Option.some.injEq] at hk
            subst hk
            exact le_of_lt (lt_of_lt_of_le hlt hbest)
          | succ k =>
            rw [List.getElem?_cons_succ] at hk
            exact hall k y hk
        · intro k y hklt hk
          cases k with
          | zero =>
            simp only [List.getElem?_cons_zero, Option.some.injEq] at hk
            subst hk
            exact lt_of_lt_of_le hlt hbest
          | succ k =>
            rw [List.getElem?_cons_succ] at hk
            exact hfirst k y (by omega) hk

/-- For a non-empty list, `minElementIdx` points at the value that is minimal
over the whole list, and every earlier entry is strictly larger (the first
minimum wins, as with `std::min_element`). -/
lemma minElementIdx_spec (l : List ℚ) (hne : l ≠ []) :
    ∃ v, l[minElementIdx l]? = some v ∧
      (∀ (k : ℕ) (x : ℚ), l[k]? = some x → v ≤ x) ∧
      (∀ (k : ℕ) (x : ℚ), k < minElementIdx l → l[k]? = some x → v < x) := by
  cases l with
  | nil => exact absurd rfl hne
  | cons h t =>
    simp only [minElementIdx]
    rcases minElemFrom_spec t h 0 1 with ⟨heq, hle⟩ | ⟨j, v, hj, heq, hlt, hall, hfirst⟩
    · rw [heq]
      refine ⟨h, List.getElem?_cons_zero, ?_, ?_⟩
      · intro k x hk
        cases k with
        | zero =>
          simp only [List.getElem?_cons_zero, Option.some.injEq] at hk
          subst hk
          exact le_refl _
        | succ k =>
          rw [List.getElem?_cons_succ] at hk
          exact hle x (mem_of_some_getElem hk)
      · intro k x hklt hk
        exact absurd hklt (Nat.not_lt_zero k)
    · rw [heq]
      have h1j : 1 + j = j + 1 := by omega
      rw [h1j]
      refine ⟨v, ?_, ?_, ?_⟩
      · rw [List.getElem?_cons_succ]
        exact hj
      · intro k x hk
        cases k with
        | zero =>
          simp only [List.getElem?_cons_zero, Option.some.injEq] at hk
          subst hk
          exact le_of_lt hlt
        | succ k =>
          rw [List.getElem?_cons_succ] at hk
          exact hall k x hk
      · intro k x hklt hk
        cases k with
        | zero =>
          simp only [List.getElem?_cons_zero, Option.some.injEq] at hk
          subst hk
          exact hlt
        | succ k =>
          rw [List.getElem?_cons_succ] at hk
          exact hfirst k x (by omega) hk

/-! ## `takeTurn` -/

lemma takeTurn_eq (p : Player) (w : ℕ) (boxes : List Box) (b : Box)
    (hb : boxes[minElementIdx (boxes.map Box.weight_)]? = some b) :
    p.takeTurn w boxes =
      (⟨p.score_ + (b.absorb (w : ℚ)).2⟩,
        boxes.set (minElementIdx (boxes.map Box.weight_)) (b.absorb (w : ℚ)).1) := by
  rw [Player.takeTurn, hb]

lemma takeTurn_eq_none (p : Player) (w : ℕ) (boxes : List Box)
    (hb : boxes[minElementIdx (boxes.map Box.weight_)]? = none) :
    p.takeTurn w boxes = (p, boxes) := by
  rw [Player.takeTurn, hb]

/-- The shared characterisation of one turn: the selected index is the first
minimum of the weights, and `takeTurn` rebuilds exactly that box. -/
lemma takeTurn_min_characterization :
    ∀ (p : Player) (w : ℕ) (boxes : List Box), boxes ≠ [] →
    ∃ i b, i = minElementIdx (boxes.map Box.weight_) ∧ boxes[i]? = some b ∧
      (∀ (j : ℕ) (c : Box), boxes[j]? = some c → b.weight_ ≤ c.weight_) ∧
      (∀ (j : ℕ) (c : Box), j < i → boxes[j]? = some c → b.weight_ < c.weight_) ∧
      p.takeTurn w boxes =
        (⟨p.score_ + (b.absorb (w : ℚ)).2⟩, boxes.set i (b.absorb (w : ℚ)).1) := by
  intro p w boxes hne
  have hmap : boxes.map Box.weight_ ≠ [] := by simpa using hne
  obtain ⟨v, hv, hall, hfirst⟩ := minElementIdx_spec _ hmap
  rw [List.getElem?_map] at hv
  cases hbb : boxes[minElementIdx (boxes.map Box.weight_)]? with
  | none => rw [hbb] at hv; simp at hv
  | some b =>
    rw [hbb] at hv
    replace hv : b.weight_ = v := by simpa using hv
    refine ⟨minElementIdx (boxes.map Box.weight_), b, rfl, hbb, ?_, ?_,
      takeTurn_eq p w boxes b hbb⟩
    · intro j c hc
      have hj : (boxes.map Box.weight_)[j]? = some c.weight_ := by
        rw [List.getElem?_map, hc]
        rfl
      rw [hv]
      exact hall j c.weight_ hj
    · intro j c hjlt hc
      have hj : (boxes.map Box.weight_)[j]? = some c.weight_ := by
        rw [List.getElem?_map, hc]
        rfl
      rw [hv]
      exact hfirst j c.weight_ hjlt hj

/-- Claim C3: in every turn the acting player selects the box whose current
weight is minimal over the collection, with ties broken in favour of the
first box in collection order; that box absorbs the token and the returned
score is added to the player's cumulative score. -/
theorem takeTurn_selects_min_spec :
    ∀ (p : Player) (w : ℕ) (boxes : List Box), boxes ≠ [] →
    ∃ i b, i = minElementIdx (boxes.map Box.weight_) ∧ boxes[i]? = some b ∧
      (∀ (j : ℕ) (c : Box), boxes[j]? = some c → b.weight_ ≤ c.weight_) ∧
      (∀ (j : ℕ) (c : Box), j < i → boxes[j]? = some c → b.weight_ < c.weight_) ∧
      p.takeTurn w boxes =
        (⟨p.score_ + (b.absorb (w : ℚ)).2⟩, boxes.set i (b.absorb (w : ℚ)).1) :=
  takeTurn_min_characterization

/-- Witness for C3 at a concrete input. -/
theorem takeTurn_selects_min_spec_witness :
    ∃ i b, i = minElementIdx (initBoxes.map Box.weight_) ∧
      initBoxes[i]? = some b ∧
      (∀ (j : ℕ) (c : Box), initBoxes[j]? = some c → b.weight_ ≤ c.weight_) ∧
      (∀ (j : ℕ) (c : Box), j < i → initBoxes[j]? = some c →
        b.weight_ < c.weight_) ∧
      (⟨5⟩ : Player).takeTurn 2 initBoxes =
        (⟨(⟨5⟩ : Player).score_ + (b.absorb ((2 : ℕ) : ℚ)).2⟩,
          initBoxes.set i (b.absorb ((2 : ℕ) : ℚ)).1) :=
  takeTurn_selects_min_spec ⟨5⟩ 2 initBoxes (by decide)

/-! ## `absorbMany` -/

lemma absorbMany_nil (b : Box) : b.absorbMany [] = b := rfl

lemma absorbMany_cons (b : Box) (w : ℚ) (ws : List ℚ) :
    b.absorbMany (w :: ws) = (b.absorb w).1.absorbMany ws := rfl

lemma absorbMany_fields : ∀ (ws : List ℚ) (b : Box),
    (b.absorbMany ws).absorbed_weights_ = b.absorbed_weights_ ++ ws ∧
    (b.absorbMany ws).weight_ = b.weight_ + ws.sum ∧
    (b.absorbMany ws).kind = b.kind := by
  intro ws
  induction ws with
  | nil => intro b; simp [absorbMany_nil]
  | cons w ws ih =>
    intro b
    rw [absorbMany_cons]
    obtain ⟨h1, h2, h3⟩ := ih (b.absorb w).1
    refine ⟨?_, ?_, ?_⟩
    · rw [h1, absorb_fst_absorbed]
      simp
    · rw [h2, absorb_fst_weight, List.sum_cons]
      ring
    · rw [h3, absorb_fst_kind]

/-- Claim C4: after any sequence of absorptions, a box's current weight is
its starting weight plus the sum of the newly absorbed values; the history
is append-only (each `absorb` appends its weight, so a fresh box ends with
exactly the absorbed sequence, in order); consequently the weight of a box
never decreases when all absorbed tokens are non-negative. -/
theorem box_weight_invariant_spec :
    (∀ (b : Box) (ws : List ℚ),
      (b.absorbMany ws).weight_ = b.weight_ + ws.sum ∧
      (b.absorbMany ws).absorbed_weights_ = b.absorbed_weights_ ++ ws) ∧
    (∀ (b : Box) (w : ℚ),
      (b.absorb w).1.absorbed_weights_ = b.absorbed_weights_ ++ [w]) ∧
    (∀ (w0 : ℚ) (ws : List ℚ),
      ((Box.makeGreenBox w0).absorbMany ws).weight_ =
        w0 + ((Box.makeGreenBox w0).absorbMany ws).absorbed_weights_.sum ∧
      ((Box.makeBlueBox w0).absorbMany ws).weight_ =
        w0 + ((Box.makeBlueBox w0).absorbMany ws).absorbed_weights_.sum) ∧
    (∀ (b : Box) (ws : List ℚ), (∀ w ∈ ws, (0 : ℚ) ≤ w) →
      b.weight_ ≤ (b.absorbMany ws).weight_) := by
  refine ⟨?_, ?_, ?_, ?_⟩
  · intro b ws
    exact ⟨(absorbMany_fields ws b).2.1, (absorbMany_fields ws b).1⟩
  · intro b w
    exact absorb_fst_absorbed b w
  · intro w0 ws
    constructor
    · rw [(absorbMany_fields ws _).2.1, (absorbMany_fields ws _).1]
      show w0 + ws.sum = w0 + (([] : List ℚ) ++ ws).sum
      rw [List.nil_append]
    · rw [(absorbMany_fields ws _).2.1, (absorbMany_fields ws _).1]
      show w0 + ws.sum = w0 + (([] : List ℚ) ++ ws).sum
      rw [List.nil_append]
  · intro b ws hws
    rw [(absorbMany_fields ws b).2.1]
    have : (0 : ℚ) ≤ ws.sum := List.sum_nonneg hws
    linarith

/-- Witness for C4 at concrete inputs. -/
theorem box_weight_invariant_spec_witness :
    ((⟨BoxKind.green, 7, [1]⟩ : Box).absorbMany [2, 3]).weight_ =
        (⟨BoxKind.green, 7, [1]⟩ : Box).weight_ + ([2, 3] : List ℚ).sum ∧
    ((⟨BoxKind.green, 7, [1]⟩ : Box).absorbMany [2, 3]).absorbed_weights_ =
        (⟨BoxKind.green, 7, [1]⟩ : Box).absorbed_weights_ ++ [2, 3] ∧
    (⟨BoxKind.green, 7, [1]⟩ : Box).weight_ ≤
        ((⟨BoxKind.green, 7, [1]⟩ : Box).absorbMany [2, 3]).weight_ :=
  ⟨(box_weight_invariant_spec.1 ⟨BoxKind.green, 7, [1]⟩ [2, 3]).1,
   (box_weight_invariant_spec.1 ⟨BoxKind.green, 7, [1]⟩ [2, 3]).2,
   box_weight_invariant_spec.2.2.2 ⟨BoxKind.green, 7, [1]⟩ [2, 3] (by decide)⟩

/-- Claim C10: one call to `takeTurn` replaces exactly the selected
minimum-weight box and leaves every other box untouched, and one iteration
of the game loop leaves the non-acting player unchanged. -/
theorem takeTurn_frame_spec :
    (∀ (p : Player) (w : ℕ) (boxes : List Box), boxes ≠ [] →
      ∃ i b, i = minElementIdx (boxes.map Box.weight_) ∧ boxes[i]? = some b ∧
        (p.takeTurn w boxes).2 = boxes.set i (b.absorb (w : ℚ)).1 ∧
        ((p.takeTurn w boxes).2)[i]? = some (b.absorb (w : ℚ)).1 ∧
        ((p.takeTurn w boxes).2).length = boxes.length ∧
        (∀ j : ℕ, j ≠ i → ((p.takeTurn w boxes).2)[j]? = boxes[j]?)) ∧
    (∀ (w : ℕ) (i : ℕ) (pA pB : Player) (boxes : List Box),
      (i % 2 = 0 → (playAux [w] i pA pB boxes).2.1 = pB) ∧
      (i % 2 ≠ 0 → (playAux [w] i pA pB boxes).1 = pA)) := by
  constructor
  · intro p w boxes hne
    obtain ⟨i, b, hi, hb, _, _, heq⟩ :=
      takeTurn_min_characterization p w boxes hne
    have hlt : i < boxes.length := (List.getElem?_eq_some.mp hb).1
    refine ⟨i, b, hi, hb, ?_, ?_, ?_, ?_⟩
    · rw [heq]
    · rw [heq]
      simp [List.getElem?_set, hlt]
    · rw [heq]
      exact List.length_set boxes i _
    · intro j hj
      rw [heq]
      exact List.getElem?_set_ne (fun h => hj h.symm)
  · intro w i pA pB boxes
    constructor
    · intro hpar
      rw [playAux, if_pos hpar]
      rfl
    · intro hpar
      rw [playAux, if_neg hpar]
      rfl

/-- Witness for C10 at a concrete input. -/
theorem takeTurn_frame_spec_witness :
    ∃ i b, i = minElementIdx (initBoxes.map Box.weight_) ∧
      initBoxes[i]? = some b ∧
      ((⟨3⟩ : Player).takeTurn 4 initBoxes).2 =
        initBoxes.set i (b.absorb ((4 : ℕ) : ℚ)).1 ∧
      (((⟨3⟩ : Player).takeTurn 4 initBoxes).2)[i]? =
        some (b.absorb ((4 : ℕ) : ℚ)).1 ∧
      (((⟨3⟩ : Player).takeTurn 4 initBoxes).2).length = initBoxes.length ∧
      (∀ j : ℕ, j ≠ i →
        (((⟨3⟩ : Player).takeTurn 4 initBoxes).2)[j]? = initBoxes[j]?) :=
  takeTurn_frame_spec.1 ⟨3⟩ 4 initBoxes (by decide)

/-! ## Score non-negativity -/

lemma greenScore_nonneg (hist : List ℚ) : 0 ≤ greenScore hist := by
  rw [greenScore]
  split
  · exact le_refl 0
  · split
    · exact sq_nonneg _
    · exact sq_nonneg _

lemma cantorFunction_nonneg (a b : ℚ) (ha : 0 ≤ a) (hb : 0 ≤ b) :
    0 ≤ cantorFunction a b := by
  rw [cantorFunction]
  nlinarith

lemma blueScore_nonneg (hist : List ℚ) (hpos : ∀ x ∈ hist, (0 : ℚ) ≤ x) :
    0 ≤ blueScore hist := by
  cases hist with
  | nil => exact le_refl 0
  | cons h t =>
    show 0 ≤ cantorFunction (t.foldl min h) (t.foldl max h)
    exact cantorFunction_nonneg _ _ (hpos _ (foldl_min_mem t h))
      (hpos _ (foldl_max_mem t h))

lemma calculateScore_nonneg (b : Box)
    (hpos : ∀ x ∈ b.absorbed_weights_, (0 : ℚ) ≤ x) :
    0 ≤ b.calculateScore := by
  rw [Box.calculateScore]
  cases b.kind with
  | green => exact greenScore_nonneg _
  | blue => exact blueScore_nonneg _ hpos

lemma absorb_score_nonneg (b : Box) (w : ℚ) (hw : 0 ≤ w)
    (hb : ∀ x ∈ b.absorbed_weights_, (0 : ℚ) ≤ x) :
    0 ≤ (b.absorb w).2 ∧
    ∀ x ∈ (b.absorb w).1.absorbed_weights_, (0 : ℚ) ≤ x := by
  have hmem : ∀ x ∈ (b.absorb w).1.absorbed_weights_, (0 : ℚ) ≤ x := by
    intro x hx
    rw [absorb_fst_absorbed] at hx
    rcases List.mem_append.mp hx with h1 | h1
    · exact hb x h1
    · rw [List.mem_singleton] at h1
      subst h1
      exact hw
  exact ⟨by rw [absorb_snd]; exact calculateScore_nonneg _ hmem, hmem⟩

lemma takeTurn_monotone (p : Player) (w : ℕ) (boxes : List Box)
    (hb : ∀ b ∈ boxes, ∀ x ∈ b.absorbed_weights_, (0 : ℚ) ≤ x) :
    p.score_ ≤ (p.takeTurn w boxes).1.score_ ∧
    ∀ b ∈ (p.takeTurn w boxes).2, ∀ x ∈ b.absorbed_weights_, (0 : ℚ) ≤ x := by
  cases hbb : boxes[minElementIdx (boxes.map Box.weight_)]? with
  | none => rw [takeTurn_eq_none p w boxes hbb]; exact ⟨le_refl _, hb⟩
  | some b0 =>
    rw [takeTurn_eq p w boxes b0 hbb]
    have h1 := absorb_score_nonneg b0 (w : ℚ) (Nat.cast_nonneg w)
      (hb b0 (mem_of_some_getElem hbb))
    constructor
    · show p.score_ ≤ p.score_ + (b0.absorb (w : ℚ)).2
      linarith [h1.1]
    · intro b hbmem x hx
      rcases List.mem_or_eq_of_mem_set hbmem with hmem2 | rfl
      · exact hb b hmem2 x hx
      · exact h1.2 x hx

lemma playAux_monotone : ∀ (ws : List ℕ) (i : ℕ) (pA pB : Player)
    (boxes : List Box),
    (∀ b ∈ boxes, ∀ x ∈ b.absorbed_weights_, (0 : ℚ) ≤ x) →
    pA.score_ ≤ (playAux ws i pA pB boxes).1.score_ ∧
    pB.score_ ≤ (playAux ws i pA pB boxes).2.1.score_ := by
  intro ws
  induction ws with
  | nil => intro i pA pB boxes _; exact ⟨le_refl _, le_refl _⟩
  | cons w ws ih =>
    intro i pA pB boxes hboxes
    rw [playAux]
    by_cases hpar : i % 2 = 0
    · rw [if_pos hpar]
      have ht := takeTurn_monotone pA w boxes hboxes
      have := ih (i + 1) (pA.takeTurn w boxes).1 pB (pA.takeTurn w boxes).2 ht.2
      exact ⟨le_trans ht.1 this.1, this.2⟩
    · rw [if_neg hpar]
      have ht := takeTurn_monotone pB w boxes hboxes
      have := ih (i + 1) pA (pB.takeTurn w boxes).1 (pB.takeTurn w boxes).2 ht.2
      exact ⟨this.1, le_trans ht.1 this.2⟩

/-- Claim C9: both players start at score 0, and for any sequence of
natural-number tokens their cumulative scores never decrease: from any game
state whose boxes hold only non-negative absorbed weights, each turn adds a
non-negative score, so the final scores dominate the starting ones and the
scores of a full game are non-negative. -/
theorem score_monotone_spec :
    (∀ ws : List ℕ, (0 : ℚ) ≤ (play ws).1 ∧ (0 : ℚ) ≤ (play ws).2) ∧
    (∀ (ws : List ℕ) (i : ℕ) (pA pB : Player) (boxes : List Box),
      (∀ b ∈ boxes, ∀ x ∈ b.absorbed_weights_, (0 : ℚ) ≤ x) →
      pA.score_ ≤ (playAux ws i pA pB boxes).1.score_ ∧
      pB.score_ ≤ (playAux ws i pA pB boxes).2.1.score_) := by
  have hinit : ∀ b ∈ initBoxes, ∀ x ∈ b.absorbed_weights_, (0 : ℚ) ≤ x := by
    intro b hb x hx
    simp only [initBoxes, Box.makeGreenBox, Box.makeBlueBox, List.mem_cons,
      List.not_mem_nil, or_false] at hb
    rcases hb with rfl | rfl | rfl | rfl <;> simp at hx
  constructor
  · intro ws
    exact playAux_monotone ws 0 ⟨0⟩ ⟨0⟩ initBoxes hinit
  · intro ws i pA pB boxes hboxes
    exact playAux_monotone ws i pA pB boxes hboxes

/-- Witness for C9 at a concrete input. -/
theorem score_monotone_spec_witness :
    ((0 : ℚ) ≤ (play [1, 1, 2, 3]).1 ∧ (0 : ℚ) ≤ (play [1, 1, 2, 3]).2) ∧
    ((⟨2⟩ : Player).score_ ≤
        (playAux [5] 0 ⟨2⟩ ⟨3⟩ initBoxes).1.score_ ∧
      (⟨3⟩ : Player).score_ ≤
        (playAux [5] 0 ⟨2⟩ ⟨3⟩ initBoxes).2.1.score_) :=
  ⟨score_monotone_spec.1 [1, 1, 2, 3],
   score_monotone_spec.2 [5] 0 ⟨2⟩ ⟨3⟩ initBoxes (by decide)⟩

/-! ## Turn alternation -/

lemma evenEntries_cons (x : ℚ) (xs : List ℚ) :
    evenEntries (x :: xs) = x :: oddEntries xs := by
  cases xs with
  | nil => rfl
  | cons y ys => rfl

lemma oddEntries_cons (x : ℚ) (xs : List ℚ) :
    oddEntries (x :: xs) = evenEntries xs := rfl

lemma takeTurn_split (p : Player) (w : ℕ) (boxes : List Box) :
    (p.takeTurn w boxes).1.score_ =
      p.score_ + ((⟨0⟩ : Player).takeTurn w boxes).1.score_ ∧
    (p.takeTurn w boxes).2 = ((⟨0⟩ : Player).takeTurn w boxes).2 := by
  cases hbb : boxes[minElementIdx (boxes.map Box.weight_)]? with
  | none =>
    rw [takeTurn_eq_none p w boxes hbb, takeTurn_eq_none ⟨0⟩ w boxes hbb]
    simp
  | some b =>
    rw [takeTurn_eq p w boxes b hbb, takeTurn_eq ⟨0⟩ w boxes b hbb]
    simp

lemma playAux_cons_even (w : ℕ) (ws : List ℕ) (i : ℕ) (pA pB : Player)
    (boxes : List Box) (h : i % 2 = 0) :
    playAux (w :: ws) i pA pB boxes =
      playAux ws (i + 1) (pA.takeTurn w boxes).1 pB (pA.takeTurn w boxes).2 := by
  rw [playAux, if_pos h]

lemma playAux_cons_odd (w : ℕ) (ws : List ℕ) (i : ℕ) (pA pB : Player)
    (boxes : List Box) (h : i % 2 ≠ 0) :
    playAux (w :: ws) i pA pB boxes =
      playAux ws (i + 1) pA (pB.takeTurn w boxes).1 (pB.takeTurn w boxes).2 := by
  rw [playAux, if_neg h]

/-- Each player's final score is the sum of the per-turn scores at the
positions whose parity that player owns. -/
lemma playAux_decomp : ∀ (ws : List ℕ) (i : ℕ) (pA pB : Player)
    (boxes : List Box),
    (i % 2 = 0 →
      (playAux ws i pA pB boxes).1.score_ =
        pA.score_ + (evenEntries (turnScores ws boxes)).sum ∧
      (playAux ws i pA pB boxes).2.1.score_ =
        pB.score_ + (oddEntries (turnScores ws boxes)).sum) ∧
    (i % 2 ≠ 0 →
      (playAux ws i pA pB boxes).1.score_ =
        pA.score_ + (oddEntries (turnScores ws boxes)).sum ∧
      (playAux ws i pA pB boxes).2.1.score_ =
        pB.score_ + (evenEntries (turnScores ws boxes)).sum) := by
  intro ws
  induction ws with
  | nil =>
    intro i pA pB boxes
    constructor <;> intro _ <;>
      simp [playAux, turnScores, evenEntries, oddEntries]
  | cons w ws ih =>
    intro i pA pB boxes
    have hts : turnScores (w :: ws) boxes =
        ((⟨0⟩ : Player).takeTurn w boxes).1.score_ ::
          turnScores ws ((⟨0⟩ : Player).takeTurn w boxes).2 := rfl
    constructor
    · intro hpar
      rw [playAux_cons_even w ws i pA pB boxes hpar]
      have hnext : (i + 1) % 2 ≠ 0 := by omega
      have hsplit := takeTurn_split pA w boxes
      have ihs := (ih (i + 1) (pA.takeTurn w boxes).1 pB
        (pA.takeTurn w boxes).2).2 hnext
      rw [hts, evenEntries_cons, oddEntries_cons]
      constructor
      · rw [ihs.1, hsplit.1, hsplit.2, List.sum_cons]
        ring
      · rw [ihs.2, hsplit.2]
    · intro hpar
      rw [playAux_cons_odd w ws i pA pB boxes hpar]
      have hnext : (i + 1) % 2 = 0 := by omega
      have hsplit := takeTurn_split pB w boxes
      have ihs := (ih (i + 1) pA (pB.takeTurn w boxes).1
        (pB.takeTurn w boxes).2).1 hnext
      rw [hts, evenEntries_cons, oddEntries_cons]
      constructor
      · rw [ihs.1, hsplit.2]
      · rw [ihs.2, hsplit.1, hsplit.2, List.sum_cons]
        ring

lemma turnScores_length : ∀ (ws : List ℕ) (boxes : List Box),
    (turnScores ws boxes).length = ws.length := by
  intro ws
  induction ws with
  | nil => intro boxes; rfl
  | cons w ws ih => intro boxes; simp [turnScores, ih]

lemma evenEntries_length : ∀ l : List ℚ, (evenEntries l).length = (l.length + 1) / 2
  | [] => by simp [evenEntries]
  | [x] => by simp [evenEntries]
  | x :: y :: xs => by
    have ih := evenEntries_length xs
    simp only [evenEntries, List.length_cons, ih]
    omega

lemma oddEntries_length (l : List ℚ) : (oddEntries l).length = l.length / 2 := by
  cases l with
  | nil => rfl
  | cons x xs =>
    show (evenEntries xs).length = (x :: xs).length / 2
    rw [evenEntries_length]
    simp

/-- Claim C5: the token at even 0-based index goes to Player A and the token
at odd index to Player B, starting with A whatever the length: the final
result of `play` is the pair of sums of the per-turn scores at even and at
odd positions, and A receives `ceil(L/2)` turn scores while B receives
`floor(L/2)`. -/
theorem play_alternation_spec : ∀ ws : List ℕ,
    play ws =
      ((evenEntries (turnScores ws initBoxes)).sum,
        (oddEntries (turnScores ws initBoxes)).sum) ∧
    (turnScores ws initBoxes).length = ws.length ∧
    (evenEntries (turnScores ws initBoxes)).length = (ws.length + 1) / 2 ∧
    (oddEntries (turnScores ws initBoxes)).length = ws.length / 2 := by
  intro ws
  have h := (playAux_decomp ws 0 ⟨0⟩ ⟨0⟩ initBoxes).1 (by norm_num)
  refine ⟨?_, turnScores_length ws initBoxes, ?_, ?_⟩
  case refine_2 => rw [evenEntries_length, turnScores_length]
  case refine_3 => rw [oddEntries_length, turnScores_length]
  have h1 : (playAux ws 0 ⟨0⟩ ⟨0⟩ initBoxes).1.score_ =
      (evenEntries (turnScores ws initBoxes)).sum := by
    rw [h.1]
    show (0 : ℚ) + _ = _
    rw [zero_add]
  have h2 : (playAux ws 0 ⟨0⟩ ⟨0⟩ initBoxes).2.1.score_ =
      (oddEntries (turnScores ws initBoxes)).sum := by
    rw [h.2]
    show (0 : ℚ) + _ = _
    rw [zero_add]
  show ((playAux ws 0 ⟨0⟩ ⟨0⟩ initBoxes).1.score_,
      (playAux ws 0 ⟨0⟩ ⟨0⟩ initBoxes).2.1.score_) = _
  rw [h1, h2]

/-! ## End-to-end games -/

/-- Claim C6: the game on the first four Fibonacci numbers ends with
Player A at 13.0 and Player B at 25.0. -/
theorem play_fib4_spec : play [1, 1, 2, 3] = (13, 25) := by
  norm_num [play, playAux, Player.takeTurn, minElementIdx, minElemFrom,
    initBoxes, Box.makeGreenBox, Box.makeBlueBox, Box.absorb,
    Box.calculateScore, greenScore, blueScore, cantorFunction]

/-- Claim C7: the game on the first eight Fibonacci numbers ends with
Player A at 155.0 and Player B at 366.25. -/
theorem play_fib8_spec :
    play [1, 1, 2, 3, 5, 8, 13, 21] = (155, 1465 / 4) := by
  norm_num [play, playAux, Player.takeTurn, minElementIdx, minElemFrom,
    initBoxes, Box.makeGreenBox, Box.makeBlueBox, Box.absorb,
    Box.calculateScore, greenScore, blueScore, cantorFunction]
  rw [if_neg (by simp : ¬ ([1, 5] : List ℚ) = []),
    if_neg (by simp : ¬ ([1, 8] : List ℚ) = [])]
  norm_num

/-- Claim C8: the empty game returns `(0.0, 0.0)` and leaves both players
and all four boxes exactly as constructed — no box absorbs anything. -/
theorem play_empty_spec :
    play [] = (0, 0) ∧
    playAux [] 0 ⟨0⟩ ⟨0⟩ initBoxes = (⟨0⟩, ⟨0⟩, initBoxes) := by
  exact ⟨rfl, rfl⟩
